import Mathlib

/-!
Shallow embedding of `src/source/AdmPointSourcePanner.cpp` (the ADM point
source panner of libspatialaudio) and a verification of its specified
behaviour.

Modelling conventions:
* C++ `float`/`double` arithmetic is modelled exactly, over an abstract
  field `K` where the code is field arithmetic (instantiated at `ℚ` for
  executable checks and at `ℝ` for the full pipeline, whose power
  summation uses `Real.sqrt` for `std::sqrt`).
* The external collaborators (gain calculator, channel lock handler, zone
  exclusion handler, and the geometry primitives `PolarToCartesian`,
  `CartesianToPolar`, `getRotationMatrix`) are out of scope per the spec
  and are modelled as opaque function parameters bundled in `Externals`.
* Sample buffers (`float*` / `std::vector<std::vector<float>>`) are
  modelled as total functions `ℕ → K` resp. `ℕ → ℕ → K` (channel index →
  sample index → value); the `+=` writes of the source become
  `Function.update` at the written index.
-/

namespace admrender

/-- Modelled from the spec: a layout channel descriptor carries at least an
`isLFE` flag (the header defining the channel type is not among the
sources; `AdmPointSourcePanner.cpp` reads only `isLFE`). -/
structure Channel where
  isLFE : Bool
deriving DecidableEq

/-- Modelled from the spec: a `Layout` is an ordered sequence of channel
descriptors. -/
structure Layout where
  channels : List Channel
deriving DecidableEq

/-- `m_nCh` as computed by the constructor (lines 26–29 of the source): the
number of non-LFE channels of the target layout. -/
def Layout.nCh (layout : Layout) : ℕ :=
  (layout.channels.filter fun c => !c.isLFE).length

/-- `PolarPosition {azimuth, elevation, distance}` over scalar type `K`. -/
structure PolarPosition (K : Type) where
  azimuth : K
  elevation : K
  distance : K
deriving DecidableEq

/-- `CartesianPosition {x, y, z}` over scalar type `K`. -/
structure CartesianPosition (K : Type) where
  x : K
  y : K
  z : K
deriving DecidableEq

/-- `ObjectDivergence {value, azimuthRange}` over scalar type `K`. -/
structure ObjectDivergence (K : Type) where
  value : K
  azimuthRange : K
deriving DecidableEq

/-- `jumpPosition` metadata: a flag and an interpolation length in samples. -/
structure JumpPosition where
  flag : Bool
  interpolationLength : ℕ
deriving DecidableEq

/-- Modelled from the spec: `ObjectMetadata` (defined in a header that is
not among the sources) carries the fields the spec's data model lists, and
two metadata values compare equal iff every field compares equal
(`operator==` is field-wise).  `CL` and `ZE` are the opaque channel-lock
and zone-exclusion parameter blocks. -/
structure ObjectMetadata (K CL ZE : Type) where
  cartesian : Bool
  cartesianPosition : CartesianPosition K
  polarPosition : PolarPosition K
  objectDivergence : ObjectDivergence K
  channelLock : CL
  zoneExclusionPolar : ZE
  gain : K
  diffuse : K
  jumpPosition : JumpPosition
deriving DecidableEq

/-- The four external collaborators consumed by the panner, per the spec's
interface list: the gain calculator, the channel lock handler, the zone
exclusion handler, and the geometry primitives.  `getRotationMatrixFn`
returns the flat 9-entry rotation matrix, indexed as `rotMat[3*i+j]` in the
source. -/
structure Externals (K CL ZE : Type) where
  calculateGains : PolarPosition K → List K
  channelLockHandle : CL → PolarPosition K → PolarPosition K
  zoneExclusionHandle : ZE → List K → List K
  cartesianToPolarFn : CartesianPosition K → PolarPosition K
  polarToCartesianFn : PolarPosition K → CartesianPosition K
  getRotationMatrixFn : K → K → K → ℕ → K

/-- One row of the rotation application of lines 174–177:
`directionRotated[i] += rotMat[3*i+j] * cartPositions[iDiverge][j]` for
`j = 0, 1, 2`. -/
def rotateRow {K : Type} [Field K] (rotMat : ℕ → K) (cart : List K) (i : ℕ) : K :=
  (List.range 3).foldl (fun acc j => acc + rotMat (3 * i + j) * cart.getD j 0) 0

/-- `CAdmPointSourcePanner::divergedPositionsAndGains` (lines 142–182).
If the divergence value is zero the original direction is returned with a
single gain of 1 (lines 150–151); otherwise the three divergence weights
of lines 155–159 are produced together with the three diverged positions
of lines 161–179 (computed through the opaque geometry primitives). -/
def divergedPositionsAndGains {K CL ZE : Type} [Field K] [DecidableEq K]
    (ext : Externals K CL ZE) (divergence : ObjectDivergence K)
    (polarDirection : PolarPosition K) :
    List (PolarPosition K) × List K :=
  let x := divergence.value
  let d := polarDirection.distance
  if x = 0 then ([polarDirection], [1])
  else
    let diverged_gains : List K := [(1 - x) / (x + 1), x / (x + 1), x / (x + 1)]
    let cartesianTmp1 := ext.polarToCartesianFn ⟨x * divergence.azimuthRange, 0, d⟩
    let cartesianTmp2 := ext.polarToCartesianFn ⟨-x * divergence.azimuthRange, 0, d⟩
    let cartPositions : List (List K) :=
      [[d, 0, 0],
       [cartesianTmp1.y, -cartesianTmp1.x, cartesianTmp1.z],
       [cartesianTmp2.y, -cartesianTmp2.x, cartesianTmp2.z]]
    let rotMat := ext.getRotationMatrixFn polarDirection.azimuth (-polarDirection.elevation) 0
    let diverged_positions := cartPositions.map fun cp =>
      ext.cartesianToPolarFn ⟨-(rotateRow rotMat cp 1), rotateRow rotMat cp 0, rotateRow rotMat cp 2⟩
    (diverged_positions, diverged_gains)

/-- The inner accumulation loop of lines 77–81: `g_tmp` starts at 0 and,
for each `j` below the number of diverged gains, accumulates
`diverged_gains[j] * gains_for_each_pos[j][i] * gains_for_each_pos[j][i]`. -/
def powerLoop {K : Type} [Field K] (diverged_gains : List K)
    (gains_for_each_pos : List (List K)) (i : ℕ) : K :=
  (List.range diverged_gains.length).foldl
    (fun acc j =>
      acc + diverged_gains.getD j 0 * ((gains_for_each_pos.getD j []).getD i 0)
          * ((gains_for_each_pos.getD j []).getD i 0)) 0

/-- Power summation of the gains (lines 76–83): for each of the `nCh`
output channels, `gains[i] = sqrt(g_tmp)` with `g_tmp` accumulated by
`powerLoop`. -/
noncomputable def powerSumGains (nCh : ℕ) (diverged_gains : List ℝ)
    (gains_for_each_pos : List (List ℝ)) : List ℝ :=
  (List.range nCh).map fun i => Real.sqrt (powerLoop diverged_gains gains_for_each_pos i)

/-- Direction resolution of lines 47–63: cartesian metadata is converted to
polar (the polar path is always used), then the channel lock handler is
applied. -/
def resolvedDirection {K CL ZE : Type} (ext : Externals K CL ZE)
    (metadata : ObjectMetadata K CL ZE) : PolarPosition K :=
  let direction :=
    if metadata.cartesian then ext.cartesianToPolarFn metadata.cartesianPosition
    else metadata.polarPosition
  ext.channelLockHandle metadata.channelLock direction

/-- The target gain computation of lines 47–91 (executed when the metadata
changed): direction resolution, divergence, per-position gain calculation,
power summation, zone-exclusion downmix, and scaling by the overall object
gain. -/
noncomputable def targetGains {CL ZE : Type} (layout : Layout)
    (ext : Externals ℝ CL ZE) (metadata : ObjectMetadata ℝ CL ZE) : List ℝ :=
  let divergedData := divergedPositionsAndGains ext metadata.objectDivergence
    (resolvedDirection ext metadata)
  let gains_for_each_pos := divergedData.1.map ext.calculateGains
  let gains := powerSumGains layout.nCh divergedData.2 gains_for_each_pos
  let gains2 := ext.zoneExclusionHandle metadata.zoneExclusionPolar gains
  gains2.map fun g => g * metadata.gain

/-- The mutable state of a panner instance: `m_gains`, `m_metadata` and
`m_bFirstFrame`. -/
structure PannerState (CL ZE : Type) where
  gains : List ℝ
  metadata : ObjectMetadata ℝ CL ZE
  firstFrame : Bool

/-- The constructor (lines 22–31): `m_gains` is resized to `m_nCh` zeros.
Modelled from the spec: the initial cached metadata is the
default-constructed `ObjectMetadata`, whose field values the sources do not
fix, so it is a parameter `m0`; `m_bFirstFrame` starts `true`. -/
def initState {CL ZE : Type} (layout : Layout) (m0 : ObjectMetadata ℝ CL ZE) :
    PannerState CL ZE :=
  ⟨List.replicate layout.nCh 0, m0, true⟩

/-- Lines 41–102 of `ProcessAccumul`: the applied gain vector and the
interpolation sample count.  If the metadata differs from the cached
metadata the target gains are recomputed and `nInterpSamples` is
`jumpPosition.interpolationLength` exactly when the jump flag is set and at
least one frame was processed before (lines 93–97); otherwise the cached
gains are reused and `nInterpSamples` keeps its initial value 0. -/
noncomputable def gainsAndInterp {CL ZE : Type} [DecidableEq CL] [DecidableEq ZE]
    (layout : Layout) (ext : Externals ℝ CL ZE) (st : PannerState CL ZE)
    (metadata : ObjectMetadata ℝ CL ZE) : List ℝ × ℕ :=
  if ¬(metadata = st.metadata) then
    (targetGains layout ext metadata,
      if metadata.jumpPosition.flag = true ∧ st.firstFrame = false then
        metadata.jumpPosition.interpolationLength
      else 0)
  else (st.gains, 0)

/-- A `+=`-accumulating loop over sample indices: for each `iSample` of the
index list `l`, the buffer slot `iSample + nOffset` is increased by
`v iSample`.  Both per-channel loops of lines 117–129 are instances. -/
def accumFold {K : Type} [Field K] (v : ℕ → K) (nOffset : ℕ) (l : List ℕ)
    (buf : ℕ → K) : ℕ → K :=
  l.foldl (fun b iSample =>
    Function.update b (iSample + nOffset) (b (iSample + nOffset) + v iSample)) buf

/-- The body of the per-channel sample application (lines 115–129), for one
output buffer with output coefficient `coeff` (`directCoefficient` or
`diffuseCoefficient`): the first loop runs `iSample` over
`[0, nInterpSamples)` and accumulates
`pIn[iSample] * (fInterp*gNew + (1-fInterp)*gOld) * coeff` with
`fInterp = iSample * deltaCoeff`; the second loop runs `iSample` over
`[nInterpSamples, nSamples)` and accumulates `pIn[iSample] * gNew * coeff`.
`deltaCoeff` is passed as an argument so that the (unconditional) division
of line 115 can be studied separately. -/
def channelApplyWith {K : Type} [Field K] (deltaCoeff : K) (pIn : ℕ → K)
    (gOld gNew coeff : K) (nInterpSamples nSamples nOffset : ℕ)
    (buf : ℕ → K) : ℕ → K :=
  let buf1 := accumFold
    (fun iSample =>
      pIn iSample * ((iSample : K) * deltaCoeff * gNew + (1 - (iSample : K) * deltaCoeff) * gOld)
        * coeff)
    nOffset (List.range nInterpSamples) buf
  accumFold (fun iSample => pIn iSample * gNew * coeff) nOffset
    (List.range' nInterpSamples (nSamples - nInterpSamples)) buf1

/-- The channel loop of lines 109–132: walk the layout's channels with the
absolute channel index `i` and the gain-vector index `iCh`; LFE channels
are skipped, non-LFE channels accumulate into their direct and diffuse
buffers (with `deltaCoeff = 1 / nInterpSamples` as on line 115, evaluated
for each non-LFE channel) and advance `iCh`. -/
def applyChannelsAux {K : Type} [Field K] (pIn : ℕ → K) (gains mGains : List K)
    (directCoefficient diffuseCoefficient : K)
    (nInterpSamples nSamples nOffset : ℕ) :
    List Channel → ℕ → ℕ → (ℕ → ℕ → K) → (ℕ → ℕ → K) → (ℕ → ℕ → K) × (ℕ → ℕ → K)
  | [], _, _, ppDirect, ppDiffuse => (ppDirect, ppDiffuse)
  | ch :: rest, i, iCh, ppDirect, ppDiffuse =>
    if ch.isLFE then
      applyChannelsAux pIn gains mGains directCoefficient diffuseCoefficient
        nInterpSamples nSamples nOffset rest (i + 1) iCh ppDirect ppDiffuse
    else
      applyChannelsAux pIn gains mGains directCoefficient diffuseCoefficient
        nInterpSamples nSamples nOffset rest (i + 1) (iCh + 1)
        (Function.update ppDirect i
          (channelApplyWith (1 / (nInterpSamples : K)) pIn (mGains.getD iCh 0)
            (gains.getD iCh 0) directCoefficient nInterpSamples nSamples nOffset
            (ppDirect i)))
        (Function.update ppDiffuse i
          (channelApplyWith (1 / (nInterpSamples : K)) pIn (mGains.getD iCh 0)
            (gains.getD iCh 0) diffuseCoefficient nInterpSamples nSamples nOffset
            (ppDiffuse i)))

/-- The result of one `ProcessAccumul` call: the two accumulated output
buffer banks and the committed panner state. -/
structure ProcessOut (CL ZE : Type) where
  direct : ℕ → ℕ → ℝ
  diffuse : ℕ → ℕ → ℝ
  state : PannerState CL ZE

/-- `CAdmPointSourcePanner::ProcessAccumul` (lines 38–140): compute the
applied gains and interpolation length, the direct and diffuse
coefficients `sqrt(1 - diffuse)` and `sqrt(diffuse)` (lines 106–107),
apply and accumulate per channel (lines 109–132), and commit
`m_gains = gains`, `m_metadata = metadata`, `m_bFirstFrame = false`
(lines 134–139). -/
noncomputable def processAccumul {CL ZE : Type} [DecidableEq CL] [DecidableEq ZE]
    (layout : Layout) (ext : Externals ℝ CL ZE) (st : PannerState CL ZE)
    (metadata : ObjectMetadata ℝ CL ZE) (pIn : ℕ → ℝ)
    (ppDirect ppDiffuse : ℕ → ℕ → ℝ) (nSamples nOffset : ℕ) : ProcessOut CL ZE :=
  let gi := gainsAndInterp layout ext st metadata
  let directCoefficient := Real.sqrt (1 - metadata.diffuse)
  let diffuseCoefficient := Real.sqrt metadata.diffuse
  let out := applyChannelsAux pIn gi.1 st.gains directCoefficient diffuseCoefficient
    gi.2 nSamples nOffset layout.channels 0 0 ppDirect ppDiffuse
  ⟨out.1, out.2, ⟨gi.1, metadata, false⟩⟩

/-- One processing step of a panner instance, as a relation on states. -/
def StepRel {CL ZE : Type} [DecidableEq CL] [DecidableEq ZE] (layout : Layout)
    (ext : Externals ℝ CL ZE) (s t : PannerState CL ZE) : Prop :=
  ∃ metadata pIn ppDirect ppDiffuse nSamples nOffset,
    (processAccumul layout ext s metadata pIn ppDirect ppDiffuse nSamples nOffset).state = t

/-- The states a panner instance constructed with initial cached metadata
`m0` can reach through calls to `ProcessAccumul`. -/
def Reachable {CL ZE : Type} [DecidableEq CL] [DecidableEq ZE] (layout : Layout)
    (ext : Externals ℝ CL ZE) (m0 : ObjectMetadata ℝ CL ZE)
    (s : PannerState CL ZE) : Prop :=
  Relation.ReflTransGen (StepRel layout ext) (initState layout m0) s

/-- The number of non-LFE channels strictly before absolute channel index
`j` in the layout order: the value the gain-vector index `iCh` has when
the channel loop reaches channel `j`. -/
def nonLFEBefore (channels : List Channel) (j : ℕ) : ℕ :=
  ((channels.take j).filter fun c => !c.isLFE).length

/-- Closed form of the amount `channelApplyWith` adds to buffer slot `k`:
slots below the offset or at sample index at or beyond both loop bounds
receive nothing; a slot whose sample index lies in `[0, nInterpSamples)`
receives the interpolated contribution; one in
`[nInterpSamples, nSamples)` receives the plain target-gain contribution. -/
def channelAddend {K : Type} [Field K] (deltaCoeff : K) (pIn : ℕ → K)
    (gOld gNew coeff : K) (nInterpSamples nSamples nOffset : ℕ) (k : ℕ) : K :=
  if nOffset ≤ k ∧ k - nOffset < nInterpSamples then
    pIn (k - nOffset) *
      (((k - nOffset : ℕ) : K) * deltaCoeff * gNew
        + (1 - ((k - nOffset : ℕ) : K) * deltaCoeff) * gOld) * coeff
  else if nOffset ≤ k ∧ k - nOffset < nSamples then
    pIn (k - nOffset) * gNew * coeff
  else 0

/-- The contribution one `ProcessAccumul` call adds at channel `t` (counted
relative to the channel list) and buffer slot `k`, when the channel loop
starts with gain-vector index `iCh0`: zero for LFE channels, otherwise the
per-channel addend taken at gain-vector index `iCh0 + nonLFEBefore`. -/
def channelContribution {K : Type} [Field K] (channels : List Channel)
    (pIn : ℕ → K) (gains mGains : List K) (coeff : K)
    (nInterpSamples nSamples nOffset : ℕ) (iCh0 t k : ℕ) : K :=
  if (channels.getD t ⟨true⟩).isLFE then 0
  else
    channelAddend (1 / (nInterpSamples : K)) pIn
      (mGains.getD (iCh0 + nonLFEBefore channels t) 0)
      (gains.getD (iCh0 + nonLFEBefore channels t) 0) coeff
      nInterpSamples nSamples nOffset k

/-- Instrumentation of line 115: the list of divisor values that reach the
division `1.f / (float)nInterpSamples`, one per non-LFE channel iteration
of the channel loop (the line is executed unconditionally in the non-LFE
branch). -/
def deltaCoeffDivisors (channels : List Channel) (nInterpSamples : ℕ) : List ℕ :=
  (channels.filter fun c => !c.isLFE).map fun _ => nInterpSamples

/-- The sample indices at which the two loops of lines 117–129 read
`pIn[iSample]`: `[0, nInterpSamples)` for the interpolation loop followed
by `[nInterpSamples, nSamples)` for the tail loop. -/
def sampleReadIndices (nInterpSamples nSamples : ℕ) : List ℕ :=
  List.range nInterpSamples ++ List.range' nInterpSamples (nSamples - nInterpSamples)

/-- The buffer slots written by the two loops of lines 117–129: each read
sample index, offset by `nOffset`. -/
def bufferWriteIndices (nInterpSamples nSamples nOffset : ℕ) : List ℕ :=
  (sampleReadIndices nInterpSamples nSamples).map fun s => s + nOffset

/-- A one-channel layout whose only channel is not an LFE. -/
def layout1 : Layout := ⟨[⟨false⟩]⟩

/-- A two-channel layout: one ordinary channel followed by one LFE. -/
def layout2 : Layout := ⟨[⟨false⟩, ⟨true⟩]⟩

/-- Trivial concrete externals over `ℚ`, used to evaluate the divergence
splitter on concrete inputs (its gain path never consults them). -/
def extQ : Externals ℚ Unit Unit where
  calculateGains := fun _ => []
  channelLockHandle := fun _ p => p
  zoneExclusionHandle := fun _ g => g
  cartesianToPolarFn := fun _ => ⟨0, 0, 0⟩
  polarToCartesianFn := fun _ => ⟨0, 0, 0⟩
  getRotationMatrixFn := fun _ _ _ _ => 0

/-- Concrete externals over `ℝ` for a single-output-channel layout: the
channel lock and zone exclusion handlers are identities, and the gain
calculator sends a source at azimuth 0 fully to the single output channel
and a source at any other azimuth nowhere. -/
noncomputable def extR : Externals ℝ Unit Unit where
  calculateGains := fun p => if p.azimuth = 0 then [1] else [0]
  channelLockHandle := fun _ p => p
  zoneExclusionHandle := fun _ g => g
  cartesianToPolarFn := fun _ => ⟨0, 0, 0⟩
  polarToCartesianFn := fun _ => ⟨0, 0, 0⟩
  getRotationMatrixFn := fun _ _ _ _ => 0

/-- Baseline concrete metadata over `ℝ`: polar position at azimuth 0,
no divergence, unit gain, fully direct, no jump. -/
def mR0 : ObjectMetadata ℝ Unit Unit :=
  ⟨false, ⟨0, 0, 0⟩, ⟨0, 0, 1⟩, ⟨0, 0⟩, (), (), 1, 0, ⟨false, 0⟩⟩

/-- Concrete metadata differing from `mR0`: azimuth 1 and a jump with
interpolation length 2. -/
def mR1 : ObjectMetadata ℝ Unit Unit :=
  ⟨false, ⟨0, 0, 0⟩, ⟨1, 0, 1⟩, ⟨0, 0⟩, (), (), 1, 0, ⟨true, 2⟩⟩

/-- Concrete metadata differing from `mR0` only in the `cartesian` flag;
its jump flag is clear and its interpolation length is 0. -/
def mR2 : ObjectMetadata ℝ Unit Unit :=
  ⟨true, ⟨0, 0, 0⟩, ⟨0, 0, 1⟩, ⟨0, 0⟩, (), (), 1, 0, ⟨false, 0⟩⟩

/-- Concrete metadata differing from `mR0` only in the jump position:
jump flag set, interpolation length 5. -/
def mR3 : ObjectMetadata ℝ Unit Unit :=
  ⟨false, ⟨0, 0, 0⟩, ⟨0, 0, 1⟩, ⟨0, 0⟩, (), (), 1, 0, ⟨true, 5⟩⟩

/-- Constant-one input signal. -/
def oneIn : ℕ → ℝ := fun _ => 1

/-- All-zero output buffer bank. -/
def zeroBuf : ℕ → ℕ → ℝ := fun _ _ => 0

end admrender

namespace admrender

lemma accumFold_nil {K : Type} [Field K] (v : ℕ → K) (nOffset : ℕ) (buf : ℕ → K) :
    accumFold v nOffset [] buf = buf := rfl

lemma accumFold_cons {K : Type} [Field K] (v : ℕ → K) (nOffset a : ℕ) (t : List ℕ)
    (buf : ℕ → K) :
    accumFold v nOffset (a :: t) buf
      = accumFold v nOffset t
          (Function.update buf (a + nOffset) (buf (a + nOffset) + v a)) := rfl

lemma accumFold_apply_not_mem {K : Type} [Field K] (v : ℕ → K) (nOffset k : ℕ)
    (l : List ℕ) (buf : ℕ → K) (h : ∀ s ∈ l, s + nOffset ≠ k) :
    accumFold v nOffset l buf k = buf k := by
  induction l generalizing buf with
  | nil => rfl
  | cons a t ih =>
    have ha : a + nOffset ≠ k := h a (List.mem_cons_self a t)
    have ht : ∀ s ∈ t, s + nOffset ≠ k := fun s hs => h s (List.mem_cons_of_mem a hs)
    rw [accumFold_cons, ih _ ht, Function.update_noteq (Ne.symm ha)]

lemma accumFold_apply_mem {K : Type} [Field K] (v : ℕ → K) (nOffset : ℕ)
    (l : List ℕ) (hnd : l.Nodup) (s0 : ℕ) (hmem : s0 ∈ l) (buf : ℕ → K) :
    accumFold v nOffset l buf (s0 + nOffset) = buf (s0 + nOffset) + v s0 := by
  induction l generalizing buf with
  | nil => cases hmem
  | cons a t ih =>
    rw [accumFold_cons]
    rcases List.mem_cons.mp hmem with h | h
    · subst h
      have hnotin : s0 ∉ t := (List.nodup_cons.mp hnd).1
      have hnot : ∀ s ∈ t, s + nOffset ≠ s0 + nOffset := by
        intro s hs hcontra
        have hss : s = s0 := by omega
        exact hnotin (hss ▸ hs)
      rw [accumFold_apply_not_mem _ _ _ _ _ hnot, Function.update_same]
    · have hne : s0 ≠ a := by
        intro hcontra
        exact (List.nodup_cons.mp hnd).1 (hcontra ▸ h)
      have hne2 : s0 + nOffset ≠ a + nOffset := by omega
      rw [ih (List.nodup_cons.mp hnd).2 h, Function.update_noteq hne2]

lemma accumFold_congr {K : Type} [Field K] (v w : ℕ → K) (nOffset : ℕ)
    (l : List ℕ) (buf : ℕ → K) (h : ∀ s ∈ l, v s = w s) :
    accumFold v nOffset l buf = accumFold w nOffset l buf := by
  induction l generalizing buf with
  | nil => rfl
  | cons a t ih =>
    rw [accumFold_cons, accumFold_cons, h a (List.mem_cons_self a t),
      ih _ fun s hs => h s (List.mem_cons_of_mem a hs)]

lemma nodup_range' (s n : ℕ) : (List.range' s n).Nodup := by
  induction n generalizing s with
  | zero => exact List.nodup_nil
  | succ n ih =>
    rw [List.range'_succ]
    refine List.nodup_cons.mpr ⟨?_, ih (s + 1)⟩
    intro hmem
    have := (List.mem_range'_1.mp hmem).1
    omega

lemma accumFold_apply_eq {K : Type} [Field K] (v : ℕ → K) (nOffset : ℕ)
    (l : List ℕ) (hnd : l.Nodup) (s0 : ℕ) (hmem : s0 ∈ l) (buf : ℕ → K)
    (k : ℕ) (hk : s0 + nOffset = k) :
    accumFold v nOffset l buf k = buf k + v s0 := by
  subst hk
  exact accumFold_apply_mem v nOffset l hnd s0 hmem buf

/-- The value `channelApplyWith` leaves at buffer slot `k`: the original
content plus the closed-form addend. -/
lemma channelApplyWith_apply {K : Type} [Field K] (deltaCoeff : K) (pIn : ℕ → K)
    (gOld gNew coeff : K) (nInterpSamples nSamples nOffset : ℕ)
    (buf : ℕ → K) (k : ℕ) :
    channelApplyWith deltaCoeff pIn gOld gNew coeff nInterpSamples nSamples nOffset buf k
      = buf k + channelAddend deltaCoeff pIn gOld gNew coeff nInterpSamples nSamples nOffset k := by
  unfold channelApplyWith channelAddend
  by_cases h1 : nOffset ≤ k ∧ k - nOffset < nInterpSamples
  · have hmem : k - nOffset ∈ List.range nInterpSamples := List.mem_range.mpr h1.2
    have hnot2 : ∀ s ∈ List.range' nInterpSamples (nSamples - nInterpSamples),
        s + nOffset ≠ k := by
      intro s hs
      have := List.mem_range'_1.mp hs
      omega
    rw [accumFold_apply_not_mem _ _ _ _ _ hnot2,
      accumFold_apply_eq _ _ _ (List.nodup_range _) _ hmem _ _ (by omega),
      if_pos h1]
  · by_cases h2 : nOffset ≤ k ∧ k - nOffset < nSamples
    · have hge : nInterpSamples ≤ k - nOffset := by omega
      have hmem : k - nOffset ∈ List.range' nInterpSamples (nSamples - nInterpSamples) := by
        refine List.mem_range'_1.mpr ⟨hge, ?_⟩
        omega
      rw [accumFold_apply_eq _ _ _ (nodup_range' _ _) _ hmem _ _ (by omega)]
      have hnot1 : ∀ s ∈ List.range nInterpSamples, s + nOffset ≠ k := by
        intro s hs
        have := List.mem_range.mp hs
        omega
      rw [accumFold_apply_not_mem _ _ _ _ _ hnot1, if_neg h1, if_pos h2]
    · have hnot2 : ∀ s ∈ List.range' nInterpSamples (nSamples - nInterpSamples),
          s + nOffset ≠ k := by
        intro s hs
        have := List.mem_range'_1.mp hs
        omega
      have hnot1 : ∀ s ∈ List.range nInterpSamples, s + nOffset ≠ k := by
        intro s hs
        have := List.mem_range.mp hs
        omega
      rw [accumFold_apply_not_mem _ _ _ _ _ hnot2, accumFold_apply_not_mem _ _ _ _ _ hnot1]
      rw [if_neg h1, if_neg h2, add_zero]

end admrender

namespace admrender

lemma nonLFEBefore_zero (channels : List Channel) : nonLFEBefore channels 0 = 0 := rfl

lemma nonLFEBefore_cons_succ (ch : Channel) (rest : List Channel) (t : ℕ) :
    nonLFEBefore (ch :: rest) (t + 1)
      = (if ch.isLFE then 0 else 1) + nonLFEBefore rest t := by
  unfold nonLFEBefore
  rw [List.take_succ_cons, List.filter_cons]
  by_cases h : ch.isLFE
  · simp [h]
  · simp [h]
    omega

lemma channelContribution_zero_cons {K : Type} [Field K] (ch : Channel)
    (rest : List Channel) (pIn : ℕ → K) (gains mGains : List K) (coeff : K)
    (nInterpSamples nSamples nOffset iCh0 k : ℕ) :
    channelContribution (ch :: rest) pIn gains mGains coeff nInterpSamples nSamples nOffset iCh0 0 k
      = if ch.isLFE then 0
        else channelAddend (1 / (nInterpSamples : K)) pIn (mGains.getD iCh0 0)
          (gains.getD iCh0 0) coeff nInterpSamples nSamples nOffset k := by
  unfold channelContribution
  simp [nonLFEBefore_zero]

lemma channelContribution_succ_cons {K : Type} [Field K] (ch : Channel)
    (rest : List Channel) (pIn : ℕ → K) (gains mGains : List K) (coeff : K)
    (nInterpSamples nSamples nOffset iCh0 t k : ℕ) :
    channelContribution (ch :: rest) pIn gains mGains coeff nInterpSamples nSamples nOffset iCh0 (t + 1) k
      = channelContribution rest pIn gains mGains coeff nInterpSamples nSamples nOffset
          (if ch.isLFE then iCh0 else iCh0 + 1) t k := by
  unfold channelContribution
  rw [List.getD_cons_succ, nonLFEBefore_cons_succ]
  by_cases h : ch.isLFE
  · simp [h]
  · have harith : iCh0 + (1 + nonLFEBefore rest t) = iCh0 + 1 + nonLFEBefore rest t := by omega
    simp [h, harith]

lemma channelContribution_nil {K : Type} [Field K] (pIn : ℕ → K)
    (gains mGains : List K) (coeff : K) (nInterpSamples nSamples nOffset iCh0 t k : ℕ) :
    channelContribution ([] : List Channel) pIn gains mGains coeff nInterpSamples nSamples nOffset iCh0 t k = 0 := by
  unfold channelContribution
  simp [List.getD]

/-- Characterization of the channel loop: starting from absolute channel
index `i` and gain-vector index `iCh`, channel `j` of the direct (resp.
diffuse) output bank holds its previous content plus the contribution of
the `(j - i)`-th remaining channel descriptor. -/
lemma applyChannelsAux_apply {K : Type} [Field K] (pIn : ℕ → K)
    (gains mGains : List K) (dC fC : K) (nI nS off : ℕ) :
    ∀ (channels : List Channel) (i iCh : ℕ) (D F : ℕ → ℕ → K) (j k : ℕ),
      ((applyChannelsAux pIn gains mGains dC fC nI nS off channels i iCh D F).1 j k
        = D j k + (if i ≤ j then
            channelContribution channels pIn gains mGains dC nI nS off iCh (j - i) k else 0))
      ∧ ((applyChannelsAux pIn gains mGains dC fC nI nS off channels i iCh D F).2 j k
        = F j k + (if i ≤ j then
            channelContribution channels pIn gains mGains fC nI nS off iCh (j - i) k else 0))
  | [], i, iCh, D, F, j, k => by
    constructor <;> simp [applyChannelsAux, channelContribution_nil]
  | ch :: rest, i, iCh, D, F, j, k => by
    have hunfold :
        applyChannelsAux pIn gains mGains dC fC nI nS off (ch :: rest) i iCh D F
          = if ch.isLFE then
              applyChannelsAux pIn gains mGains dC fC nI nS off rest (i + 1) iCh D F
            else
              applyChannelsAux pIn gains mGains dC fC nI nS off rest (i + 1) (iCh + 1)
                (Function.update D i
                  (channelApplyWith (1 / (nI : K)) pIn (mGains.getD iCh 0)
                    (gains.getD iCh 0) dC nI nS off (D i)))
                (Function.update F i
                  (channelApplyWith (1 / (nI : K)) pIn (mGains.getD iCh 0)
                    (gains.getD iCh 0) fC nI nS off (F i))) := rfl
    by_cases hLFE : ch.isLFE
    · have hstep :
          applyChannelsAux pIn gains mGains dC fC nI nS off (ch :: rest) i iCh D F
            = applyChannelsAux pIn gains mGains dC fC nI nS off rest (i + 1) iCh D F := by
        rw [hunfold, if_pos hLFE]
      rw [hstep]
      obtain ⟨ih1, ih2⟩ := applyChannelsAux_apply pIn gains mGains dC fC nI nS off rest (i + 1) iCh D F j k
      rw [ih1, ih2]
      have hiff : ∀ c : K,
          (if i + 1 ≤ j then
            channelContribution rest pIn gains mGains c nI nS off iCh (j - (i + 1)) k else 0)
          = (if i ≤ j then
            channelContribution (ch :: rest) pIn gains mGains c nI nS off iCh (j - i) k else 0) := by
        intro c
        by_cases hij : i + 1 ≤ j
        · rw [if_pos hij, if_pos (by omega)]
          have hj : j - i = (j - (i + 1)) + 1 := by omega
          rw [hj, channelContribution_succ_cons, if_pos hLFE]
        · by_cases hij0 : i ≤ j
          · have hji : j = i := by omega
            subst hji
            rw [if_neg hij, if_pos hij0, Nat.sub_self, channelContribution_zero_cons,
              if_pos hLFE]
          · rw [if_neg hij, if_neg hij0]
      rw [hiff dC, hiff fC]
      exact ⟨rfl, rfl⟩
    · have hstep :
          applyChannelsAux pIn gains mGains dC fC nI nS off (ch :: rest) i iCh D F
            = applyChannelsAux pIn gains mGains dC fC nI nS off rest (i + 1) (iCh + 1)
                (Function.update D i
                  (channelApplyWith (1 / (nI : K)) pIn (mGains.getD iCh 0)
                    (gains.getD iCh 0) dC nI nS off (D i)))
                (Function.update F i
                  (channelApplyWith (1 / (nI : K)) pIn (mGains.getD iCh 0)
                    (gains.getD iCh 0) fC nI nS off (F i))) := by
        rw [hunfold, if_neg hLFE]
      rw [hstep]
      obtain ⟨ih1, ih2⟩ := applyChannelsAux_apply pIn gains mGains dC fC nI nS off rest (i + 1) (iCh + 1)
        (Function.update D i
          (channelApplyWith (1 / (nI : K)) pIn (mGains.getD iCh 0)
            (gains.getD iCh 0) dC nI nS off (D i)))
        (Function.update F i
          (channelApplyWith (1 / (nI : K)) pIn (mGains.getD iCh 0)
            (gains.getD iCh 0) fC nI nS off (F i))) j k
      rw [ih1, ih2]
      by_cases hji : j = i
      · subst hji
        have hnlt : ¬(j + 1 ≤ j) := by omega
        have hle : j ≤ j := le_refl j
        rw [Function.update_same, Function.update_same,
          channelApplyWith_apply, channelApplyWith_apply,
          if_neg hnlt, if_neg hnlt, if_pos hle, if_pos hle,
          Nat.sub_self, channelContribution_zero_cons, channelContribution_zero_cons,
          if_neg hLFE, if_neg hLFE]
        exact ⟨by ring, by ring⟩
      · rw [Function.update_noteq hji, Function.update_noteq hji]
        have hiff : ∀ c : K,
            (if i + 1 ≤ j then
              channelContribution rest pIn gains mGains c nI nS off (iCh + 1) (j - (i + 1)) k else 0)
            = (if i ≤ j then
              channelContribution (ch :: rest) pIn gains mGains c nI nS off iCh (j - i) k else 0) := by
          intro c
          by_cases hij : i + 1 ≤ j
          · rw [if_pos hij, if_pos (by omega)]
            have hj : j - i = (j - (i + 1)) + 1 := by omega
            rw [hj, channelContribution_succ_cons, if_neg hLFE]
          · rw [if_neg hij, if_neg (by omega)]
        rw [hiff dC, hiff fC]
        exact ⟨rfl, rfl⟩

end admrender

namespace admrender

lemma applyChannelsAux_fst_zero {K : Type} [Field K] (pIn : ℕ → K)
    (gains mGains : List K) (dC fC : K) (nI nS off : ℕ) (channels : List Channel)
    (D F : ℕ → ℕ → K) (j k : ℕ) :
    (applyChannelsAux pIn gains mGains dC fC nI nS off channels 0 0 D F).1 j k
      = D j k + channelContribution channels pIn gains mGains dC nI nS off 0 j k := by
  rw [(applyChannelsAux_apply pIn gains mGains dC fC nI nS off channels 0 0 D F j k).1,
    if_pos (Nat.zero_le j), Nat.sub_zero]

lemma applyChannelsAux_snd_zero {K : Type} [Field K] (pIn : ℕ → K)
    (gains mGains : List K) (dC fC : K) (nI nS off : ℕ) (channels : List Channel)
    (D F : ℕ → ℕ → K) (j k : ℕ) :
    (applyChannelsAux pIn gains mGains dC fC nI nS off channels 0 0 D F).2 j k
      = F j k + channelContribution channels pIn gains mGains fC nI nS off 0 j k := by
  rw [(applyChannelsAux_apply pIn gains mGains dC fC nI nS off channels 0 0 D F j k).2,
    if_pos (Nat.zero_le j), Nat.sub_zero]

lemma processAccumul_state {CL ZE : Type} [DecidableEq CL] [DecidableEq ZE]
    (layout : Layout) (ext : Externals ℝ CL ZE) (st : PannerState CL ZE)
    (metadata : ObjectMetadata ℝ CL ZE) (pIn : ℕ → ℝ) (D F : ℕ → ℕ → ℝ)
    (nSamples nOffset : ℕ) :
    (processAccumul layout ext st metadata pIn D F nSamples nOffset).state
      = ⟨(gainsAndInterp layout ext st metadata).1, metadata, false⟩ := rfl

lemma processAccumul_direct_apply {CL ZE : Type} [DecidableEq CL] [DecidableEq ZE]
    (layout : Layout) (ext : Externals ℝ CL ZE) (st : PannerState CL ZE)
    (metadata : ObjectMetadata ℝ CL ZE) (pIn : ℕ → ℝ) (D F : ℕ → ℕ → ℝ)
    (nSamples nOffset j k : ℕ) :
    (processAccumul layout ext st metadata pIn D F nSamples nOffset).direct j k
      = D j k + channelContribution layout.channels pIn
          (gainsAndInterp layout ext st metadata).1 st.gains
          (Real.sqrt (1 - metadata.diffuse))
          (gainsAndInterp layout ext st metadata).2 nSamples nOffset 0 j k :=
  applyChannelsAux_fst_zero pIn (gainsAndInterp layout ext st metadata).1 st.gains
    (Real.sqrt (1 - metadata.diffuse)) (Real.sqrt metadata.diffuse)
    (gainsAndInterp layout ext st metadata).2 nSamples nOffset layout.channels D F j k

lemma processAccumul_diffuse_apply {CL ZE : Type} [DecidableEq CL] [DecidableEq ZE]
    (layout : Layout) (ext : Externals ℝ CL ZE) (st : PannerState CL ZE)
    (metadata : ObjectMetadata ℝ CL ZE) (pIn : ℕ → ℝ) (D F : ℕ → ℕ → ℝ)
    (nSamples nOffset j k : ℕ) :
    (processAccumul layout ext st metadata pIn D F nSamples nOffset).diffuse j k
      = F j k + channelContribution layout.channels pIn
          (gainsAndInterp layout ext st metadata).1 st.gains
          (Real.sqrt metadata.diffuse)
          (gainsAndInterp layout ext st metadata).2 nSamples nOffset 0 j k :=
  applyChannelsAux_snd_zero pIn (gainsAndInterp layout ext st metadata).1 st.gains
    (Real.sqrt (1 - metadata.diffuse)) (Real.sqrt metadata.diffuse)
    (gainsAndInterp layout ext st metadata).2 nSamples nOffset layout.channels D F j k

/-- The addend at the buffer slot of sample index `s`. -/
lemma channelAddend_at {K : Type} [Field K] (deltaCoeff : K) (pIn : ℕ → K)
    (gOld gNew coeff : K) (nInterpSamples nSamples nOffset s : ℕ) :
    channelAddend deltaCoeff pIn gOld gNew coeff nInterpSamples nSamples nOffset (s + nOffset)
      = if s < nInterpSamples then
          pIn s * ((s : K) * deltaCoeff * gNew + (1 - (s : K) * deltaCoeff) * gOld) * coeff
        else if s < nSamples then pIn s * gNew * coeff
        else 0 := by
  unfold channelAddend
  have hs : s + nOffset - nOffset = s := by omega
  by_cases h1 : s < nInterpSamples
  · rw [if_pos ⟨by omega, by omega⟩, if_pos h1, hs]
  · rw [if_neg (by omega), if_neg h1]
    by_cases h2 : s < nSamples
    · rw [if_pos ⟨by omega, by omega⟩, if_pos h2, hs]
    · rw [if_neg (by omega), if_neg h2]

lemma foldl_add_eq_sum {K : Type} [Field K] (f : ℕ → K) :
    ∀ (n : ℕ) (a : K),
      (List.range n).foldl (fun acc j => acc + f j) a = a + ∑ j ∈ Finset.range n, f j
  | 0, a => by simp
  | n + 1, a => by
    rw [List.range_succ, List.foldl_append, foldl_add_eq_sum f n a, Finset.sum_range_succ]
    simp [add_assoc]

lemma powerLoop_eq_sum {K : Type} [Field K] (dg : List K) (gps : List (List K)) (i : ℕ) :
    powerLoop dg gps i
      = ∑ j ∈ Finset.range dg.length, dg.getD j 0 * ((gps.getD j []).getD i 0) ^ 2 := by
  have h := foldl_add_eq_sum
    (fun j => dg.getD j 0 * ((gps.getD j []).getD i 0) * ((gps.getD j []).getD i 0))
    dg.length 0
  unfold powerLoop
  rw [h, zero_add]
  refine Finset.sum_congr rfl fun j _ => by ring

end admrender

namespace admrender

lemma divergedPositionsAndGains_of_zero {K CL ZE : Type} [Field K] [DecidableEq K]
    (ext : Externals K CL ZE) (dv : ObjectDivergence K) (p : PolarPosition K)
    (h : dv.value = 0) :
    divergedPositionsAndGains ext dv p = ([p], [1]) := by
  unfold divergedPositionsAndGains
  rw [if_pos h]

lemma divergedPositionsAndGains_snd_of_ne {K CL ZE : Type} [Field K] [DecidableEq K]
    (ext : Externals K CL ZE) (dv : ObjectDivergence K) (p : PolarPosition K)
    (h : ¬(dv.value = 0)) :
    (divergedPositionsAndGains ext dv p).2
      = [(1 - dv.value) / (dv.value + 1), dv.value / (dv.value + 1),
         dv.value / (dv.value + 1)] := by
  unfold divergedPositionsAndGains
  rw [if_neg h]

/-- C6: with divergence value 0, `divergedPositionsAndGains` returns exactly
the single-element position list holding the unchanged input direction,
paired with the single weight 1. -/
theorem adm_c6_no_divergence_identity (K : Type) [Field K] [DecidableEq K]
    {CL ZE : Type} (ext : Externals K CL ZE) (ar : K) (p : PolarPosition K) :
    divergedPositionsAndGains ext ⟨0, ar⟩ p = ([p], [1]) :=
  divergedPositionsAndGains_of_zero ext ⟨0, ar⟩ p rfl

/-- C5: for any divergence value `x ∈ [0,1]` with `x ≠ 0`, the splitter
returns exactly the three weights `[(1-x)/(1+x), x/(1+x), x/(1+x)]`, whose
sum is exactly 1, and at `x = 1` the weights are `[0, 1/2, 1/2]` (no
special-casing: the centre weight vanishes and the two side weights are
equal). -/
theorem adm_c5_divergence_weights (K : Type) [LinearOrderedField K]
    {CL ZE : Type} (ext : Externals K CL ZE) (x ar : K) (p : PolarPosition K)
    (hx0 : 0 ≤ x) (hx1 : x ≤ 1) (hxne : x ≠ 0) :
    (divergedPositionsAndGains ext ⟨x, ar⟩ p).2
        = [(1 - x) / (1 + x), x / (1 + x), x / (1 + x)]
    ∧ ((divergedPositionsAndGains ext ⟨x, ar⟩ p).2).sum = 1
    ∧ (x = 1 → (divergedPositionsAndGains ext ⟨x, ar⟩ p).2 = [0, 1 / 2, 1 / 2]) := by
  have hform := divergedPositionsAndGains_snd_of_ne ext ⟨x, ar⟩ p hxne
  have hc : x + 1 = 1 + x := add_comm x 1
  have h1x : (1 : K) + x ≠ 0 := by positivity
  refine ⟨by rw [hform, hc], ?_, ?_⟩
  · rw [hform, hc]
    simp only [List.sum_cons, List.sum_nil, add_zero]
    field_simp
  · intro hx
    subst hx
    rw [hform]
    norm_num

/-- Witness for C5 at `K = ℚ`, `x = 1`. -/
theorem adm_c5_witness :
    ((0 : ℚ) ≤ 1 ∧ (1 : ℚ) ≤ 1 ∧ (1 : ℚ) ≠ 0)
    ∧ (divergedPositionsAndGains extQ ⟨1, 30⟩ ⟨0, 0, 1⟩).2
        = [(1 - 1) / (1 + 1), 1 / (1 + 1), 1 / (1 + 1)]
    ∧ ((divergedPositionsAndGains extQ ⟨1, 30⟩ ⟨0, 0, 1⟩).2).sum = 1
    ∧ (divergedPositionsAndGains extQ ⟨1, 30⟩ ⟨0, 0, 1⟩).2 = [0, 1 / 2, 1 / 2] := by
  have h := adm_c5_divergence_weights ℚ extQ 1 30 ⟨0, 0, 1⟩ (by norm_num) (by norm_num)
    (by norm_num)
  exact ⟨⟨by norm_num, by norm_num, by norm_num⟩, h.1, h.2.1, h.2.2 rfl⟩

end admrender

namespace admrender

/-- C2: the gain vector computed on metadata change combines the per-source
gains in the power domain: each channel's value is the square root of the
weighted sum of squared per-position gains (and the target-gain pipeline
applies exactly this power summation before zone exclusion and overall-gain
scaling); it is not the linear sum of the weighted gains, as a concrete
instance separates the two. -/
theorem adm_c2_power_summation :
    (∀ (nCh : ℕ) (dg : List ℝ) (gps : List (List ℝ)),
      powerSumGains nCh dg gps
        = (List.range nCh).map fun i =>
            Real.sqrt (∑ j ∈ Finset.range dg.length,
              dg.getD j 0 * ((gps.getD j []).getD i 0) ^ 2))
    ∧ (∀ (CL ZE : Type) (layout : Layout) (ext : Externals ℝ CL ZE)
        (metadata : ObjectMetadata ℝ CL ZE),
      targetGains layout ext metadata
        = (ext.zoneExclusionHandle metadata.zoneExclusionPolar
            (powerSumGains layout.nCh
              (divergedPositionsAndGains ext metadata.objectDivergence
                (resolvedDirection ext metadata)).2
              ((divergedPositionsAndGains ext metadata.objectDivergence
                (resolvedDirection ext metadata)).1.map ext.calculateGains))).map
            fun g => g * metadata.gain)
    ∧ powerSumGains 1 [1 / 2, 1 / 4, 1 / 4] [[0], [2], [0]]
        ≠ [(1 : ℝ) / 2 * 0 + 1 / 4 * 2 + 1 / 4 * 0] := by
  refine ⟨?_, fun CL ZE layout ext metadata => rfl, ?_⟩
  · intro nCh dg gps
    unfold powerSumGains
    refine congrArg (fun f => List.map f (List.range nCh)) (funext fun i => ?_)
    rw [powerLoop_eq_sum]
  · have hL : powerSumGains 1 [(1 : ℝ) / 2, 1 / 4, 1 / 4] [[0], [2], [0]] = [1] := by
      unfold powerSumGains powerLoop
      norm_num [List.range_succ]
    rw [hL]
    norm_num

/-- C9 counterexample: the division of line 115 is not guarded; with
interpolation sample count 0 and a single non-LFE channel, the divisor 0
reaches the division (a division by zero occurs, once per non-LFE
channel). -/
theorem adm_c9_counterexample :
    deltaCoeffDivisors [⟨false⟩] 0 = [0] ∧ (0 : ℕ) ∈ deltaCoeffDivisors [⟨false⟩] 0 := by
  constructor <;> decide

/-- C9 (amended): the division `1 / nInterpSamples` is evaluated
unconditionally, but when the interpolation sample count is 0 its result is
never used: the interpolation loop body runs zero times, the per-channel
application is independent of the value of `deltaCoeff`, and the target
gain is applied for the entire frame. -/
theorem adm_c9_zero_interp_full_frame :
    (∀ (d dAlt : ℝ) (pIn : ℕ → ℝ) (gOld gNew coeff : ℝ) (nSamples nOffset : ℕ)
      (buf : ℕ → ℝ),
      channelApplyWith d pIn gOld gNew coeff 0 nSamples nOffset buf
        = channelApplyWith dAlt pIn gOld gNew coeff 0 nSamples nOffset buf)
    ∧ (∀ (d : ℝ) (pIn : ℕ → ℝ) (gOld gNew coeff : ℝ) (nSamples nOffset : ℕ)
      (buf : ℕ → ℝ) (k : ℕ),
      channelApplyWith d pIn gOld gNew coeff 0 nSamples nOffset buf k
        = buf k + (if nOffset ≤ k ∧ k - nOffset < nSamples then
            pIn (k - nOffset) * gNew * coeff else 0)) := by
  have haddend : ∀ (d : ℝ) (pIn : ℕ → ℝ) (gOld gNew coeff : ℝ) (nSamples nOffset k : ℕ),
      channelAddend d pIn gOld gNew coeff 0 nSamples nOffset k
        = if nOffset ≤ k ∧ k - nOffset < nSamples then
            pIn (k - nOffset) * gNew * coeff else 0 := by
    intro d pIn gOld gNew coeff nSamples nOffset k
    unfold channelAddend
    rw [if_neg (by omega)]
  constructor
  · intro d dAlt pIn gOld gNew coeff nSamples nOffset buf
    funext k
    rw [channelApplyWith_apply, channelApplyWith_apply, haddend, haddend]
  · intro d pIn gOld gNew coeff nSamples nOffset buf k
    rw [channelApplyWith_apply, haddend]

/-- C10: under the precondition that the interpolation length is at most
`nSamples`, all sample reads lie in `[0, nSamples)` and all buffer writes in
`[nOffset, nOffset + nSamples)`; the per-channel application depends on the
input only at the read indices and leaves every slot outside the write
indices unchanged; and whenever the interpolation length exceeds
`nSamples`, sample index `nSamples` itself is read and slot
`nSamples + nOffset` is written, i.e. the interpolation loop accesses
indices at or beyond `nSamples` because its bound is the interpolation
length alone. -/
theorem adm_c10_access_bounds :
    (∀ nI nS : ℕ, nI ≤ nS → ∀ s ∈ sampleReadIndices nI nS, s < nS)
    ∧ (∀ nI nS off : ℕ, nI ≤ nS →
        ∀ k ∈ bufferWriteIndices nI nS off, off ≤ k ∧ k < off + nS)
    ∧ (∀ (d : ℝ) (pIn pIn2 : ℕ → ℝ) (g0 g1 c : ℝ) (nI nS off : ℕ) (buf : ℕ → ℝ),
        (∀ s ∈ sampleReadIndices nI nS, pIn s = pIn2 s) →
        channelApplyWith d pIn g0 g1 c nI nS off buf
          = channelApplyWith d pIn2 g0 g1 c nI nS off buf)
    ∧ (∀ (d : ℝ) (pIn : ℕ → ℝ) (g0 g1 c : ℝ) (nI nS off k : ℕ) (buf : ℕ → ℝ),
        k ∉ bufferWriteIndices nI nS off →
        channelApplyWith d pIn g0 g1 c nI nS off buf k = buf k)
    ∧ (∀ nI nS off : ℕ, nS < nI →
        nS ∈ sampleReadIndices nI nS ∧ nS + off ∈ bufferWriteIndices nI nS off) := by
  have hread : ∀ nI nS s : ℕ, s ∈ sampleReadIndices nI nS → s < nI ∨ (nI ≤ s ∧ s < nS) := by
    intro nI nS s hs
    rcases List.mem_append.mp hs with h | h
    · exact Or.inl (List.mem_range.mp h)
    · have := List.mem_range'_1.mp h
      exact Or.inr ⟨this.1, by omega⟩
  refine ⟨?_, ?_, ?_, ?_, ?_⟩
  · intro nI nS hns s hs
    rcases hread nI nS s hs with h | h <;> omega
  · intro nI nS off hns k hk
    obtain ⟨s, hs, rfl⟩ := List.mem_map.mp hk
    rcases hread nI nS s hs with h | h <;> constructor <;> omega
  · intro d pIn pIn2 g0 g1 c nI nS off buf h
    unfold channelApplyWith
    rw [accumFold_congr
        (fun iSample =>
          pIn iSample * ((iSample : ℝ) * d * g1 + (1 - (iSample : ℝ) * d) * g0) * c)
        (fun iSample =>
          pIn2 iSample * ((iSample : ℝ) * d * g1 + (1 - (iSample : ℝ) * d) * g0) * c)
        off (List.range nI) buf
        (fun s hs => by simp only [h s (List.mem_append_left _ hs)]),
      accumFold_congr
        (fun iSample => pIn iSample * g1 * c)
        (fun iSample => pIn2 iSample * g1 * c)
        off (List.range' nI (nS - nI)) _
        (fun s hs => by simp only [h s (List.mem_append_right _ hs)])]
  · intro d pIn g0 g1 c nI nS off k buf hk
    rw [channelApplyWith_apply]
    have hzero : channelAddend d pIn g0 g1 c nI nS off k = 0 := by
      unfold channelAddend
      by_cases h1 : off ≤ k ∧ k - off < nI
      · exfalso
        refine hk (List.mem_map.mpr ⟨k - off, List.mem_append_left _
          (List.mem_range.mpr h1.2), by omega⟩)
      · rw [if_neg h1]
        by_cases h2 : off ≤ k ∧ k - off < nS
        · exfalso
          refine hk (List.mem_map.mpr ⟨k - off, List.mem_append_right _
            (List.mem_range'_1.mpr ⟨by omega, by omega⟩), by omega⟩)
        · rw [if_neg h2]
    rw [hzero, add_zero]
  · intro nI nS off hns
    have h1 : nS ∈ sampleReadIndices nI nS :=
      List.mem_append_left _ (List.mem_range.mpr hns)
    exact ⟨h1, List.mem_map.mpr ⟨nS, h1, rfl⟩⟩

/-- Witness for C10: a call with interpolation length 5 and 4 samples reads
sample index 4 and writes slot 4. -/
theorem adm_c10_witness :
    (4 : ℕ) < 5
    ∧ ((4 : ℕ) ∈ sampleReadIndices 5 4 ∧ (4 : ℕ) + 0 ∈ bufferWriteIndices 5 4 0) :=
  ⟨by decide, adm_c10_access_bounds.2.2.2.2 5 4 0 (by decide)⟩

end admrender

namespace admrender

lemma mR1_ne_mR0 : ¬(mR1 = mR0) := by simp [mR1, mR0]

lemma mR0_ne_mR2 : ¬(mR0 = mR2) := by simp [mR0, mR2]

lemma mR3_ne_mR0 : ¬(mR3 = mR0) := by simp [mR3, mR0]

lemma mR2_ne_mR0 : ¬(mR2 = mR0) := by simp [mR0, mR2]

lemma targetGains_layout1_mR0 : targetGains layout1 extR mR0 = [1] := by
  have hdiv : divergedPositionsAndGains extR mR0.objectDivergence
      (resolvedDirection extR mR0) = ([⟨0, 0, 1⟩], [1]) :=
    divergedPositionsAndGains_of_zero extR _ _ rfl
  simp only [targetGains]
  rw [hdiv]
  norm_num [extR, powerSumGains, powerLoop, List.range_succ, mR0, layout1,
    Layout.nCh, Real.sqrt_one]

lemma targetGains_layout1_mR1 : targetGains layout1 extR mR1 = [0] := by
  have hdiv : divergedPositionsAndGains extR mR1.objectDivergence
      (resolvedDirection extR mR1) = ([⟨1, 0, 1⟩], [1]) :=
    divergedPositionsAndGains_of_zero extR _ _ rfl
  simp only [targetGains]
  rw [hdiv]
  norm_num [extR, powerSumGains, powerLoop, List.range_succ, mR1, layout1,
    Layout.nCh, Real.sqrt_zero]

lemma gainsAndInterp_reuse {CL ZE : Type} [DecidableEq CL] [DecidableEq ZE]
    (layout : Layout) (ext : Externals ℝ CL ZE) (st : PannerState CL ZE) :
    gainsAndInterp layout ext st st.metadata = (st.gains, 0) := by
  unfold gainsAndInterp
  rw [if_neg (not_not_intro rfl)]

lemma gainsAndInterp_init_mR2_mR0 :
    gainsAndInterp layout1 extR (initState layout1 mR2) mR0 = ([1], 0) := by
  unfold gainsAndInterp
  rw [if_pos (show ¬(mR0 = (initState layout1 mR2).metadata) from mR0_ne_mR2),
    targetGains_layout1_mR0,
    if_neg (show ¬(mR0.jumpPosition.flag = true
      ∧ (initState layout1 mR2).firstFrame = false) by simp [mR0, initState])]

lemma gainsAndInterp_s1_mR1 :
    gainsAndInterp layout1 extR ⟨[1], mR0, false⟩ mR1 = ([0], 2) := by
  unfold gainsAndInterp
  rw [if_pos (show ¬(mR1 = (⟨[1], mR0, false⟩ : PannerState Unit Unit).metadata)
      from mR1_ne_mR0),
    targetGains_layout1_mR1, if_pos ⟨rfl, rfl⟩]
  rfl

end admrender

namespace admrender

lemma channelContribution_of_lfe {K : Type} [Field K] (channels : List Channel)
    (pIn : ℕ → K) (gains mGains : List K) (coeff : K)
    (nI nS off iCh0 t k : ℕ) (h : (channels.getD t ⟨true⟩).isLFE = true) :
    channelContribution channels pIn gains mGains coeff nI nS off iCh0 t k = 0 := by
  unfold channelContribution
  rw [if_pos h]

lemma channelContribution_of_not_lfe {K : Type} [Field K] (channels : List Channel)
    (pIn : ℕ → K) (gains mGains : List K) (coeff : K)
    (nI nS off iCh0 t k : ℕ) (h : (channels.getD t ⟨true⟩).isLFE = false) :
    channelContribution channels pIn gains mGains coeff nI nS off iCh0 t k
      = channelAddend (1 / (nI : K)) pIn
          (mGains.getD (iCh0 + nonLFEBefore channels t) 0)
          (gains.getD (iCh0 + nonLFEBefore channels t) 0) coeff nI nS off k := by
  unfold channelContribution
  rw [if_neg (show ¬((channels.getD t ⟨true⟩).isLFE = true) by rw [h]; decide)]

/-- C1: for every call and every non-LFE channel, a sample index `s` below
the interpolation length is accumulated with the effective gain
`f*g1 + (1-f)*g0` where `f = s / interpSamples`, `g1` is the target gain
and `g0` the cached previous gain, while sample indices from the
interpolation length up to `nSamples` are accumulated with `g1` alone; in
the concrete scenario with previous gains `[0,1]`, target gains `[1,0]`,
interpolation length 2, 4 samples of constant input 1 and unit output
coefficient, the effective per-sample gains are `[0, 1/2, 1, 1]` on
channel 0 and `[1, 1/2, 0, 0]` on channel 1. -/
theorem adm_c1_interpolated_application :
    (∀ (CL ZE : Type) [DecidableEq CL] [DecidableEq ZE]
      (layout : Layout) (ext : Externals ℝ CL ZE) (st : PannerState CL ZE)
      (metadata : ObjectMetadata ℝ CL ZE) (pIn : ℕ → ℝ) (D F : ℕ → ℕ → ℝ)
      (nSamples nOffset j s : ℕ),
      (layout.channels.getD j ⟨true⟩).isLFE = false →
      (s < (gainsAndInterp layout ext st metadata).2 →
        (processAccumul layout ext st metadata pIn D F nSamples nOffset).direct j (s + nOffset)
          = D j (s + nOffset)
            + pIn s * (((s : ℝ) / (((gainsAndInterp layout ext st metadata).2 : ℕ) : ℝ))
                  * ((gainsAndInterp layout ext st metadata).1.getD (nonLFEBefore layout.channels j) 0)
                + (1 - (s : ℝ) / (((gainsAndInterp layout ext st metadata).2 : ℕ) : ℝ))
                  * (st.gains.getD (nonLFEBefore layout.channels j) 0))
              * Real.sqrt (1 - metadata.diffuse)
        ∧ (processAccumul layout ext st metadata pIn D F nSamples nOffset).diffuse j (s + nOffset)
          = F j (s + nOffset)
            + pIn s * (((s : ℝ) / (((gainsAndInterp layout ext st metadata).2 : ℕ) : ℝ))
                  * ((gainsAndInterp layout ext st metadata).1.getD (nonLFEBefore layout.channels j) 0)
                + (1 - (s : ℝ) / (((gainsAndInterp layout ext st metadata).2 : ℕ) : ℝ))
                  * (st.gains.getD (nonLFEBefore layout.channels j) 0))
              * Real.sqrt metadata.diffuse)
      ∧ ((gainsAndInterp layout ext st metadata).2 ≤ s → s < nSamples →
        (processAccumul layout ext st metadata pIn D F nSamples nOffset).direct j (s + nOffset)
          = D j (s + nOffset)
            + pIn s * ((gainsAndInterp layout ext st metadata).1.getD (nonLFEBefore layout.channels j) 0)
              * Real.sqrt (1 - metadata.diffuse)
        ∧ (processAccumul layout ext st metadata pIn D F nSamples nOffset).diffuse j (s + nOffset)
          = F j (s + nOffset)
            + pIn s * ((gainsAndInterp layout ext st metadata).1.getD (nonLFEBefore layout.channels j) 0)
              * Real.sqrt metadata.diffuse))
    ∧ (List.range 4).map
        (channelApplyWith (1 / ((2 : ℕ) : ℚ)) (fun _ => 1) 0 1 1 2 4 0 fun _ => 0)
        = [0, 1 / 2, 1, 1]
    ∧ (List.range 4).map
        (channelApplyWith (1 / ((2 : ℕ) : ℚ)) (fun _ => 1) 1 0 1 2 4 0 fun _ => 0)
        = [1, 1 / 2, 0, 0] := by
  refine ⟨?_, ?_, ?_⟩
  · intro CL ZE _ _ layout ext st metadata pIn D F nSamples nOffset j s hLFE
    constructor
    · intro hs
      constructor
      · rw [processAccumul_direct_apply,
          channelContribution_of_not_lfe _ _ _ _ _ _ _ _ _ _ _ hLFE]
        simp only [Nat.zero_add]
        rw [channelAddend_at, if_pos hs]
        ring
      · rw [processAccumul_diffuse_apply,
          channelContribution_of_not_lfe _ _ _ _ _ _ _ _ _ _ _ hLFE]
        simp only [Nat.zero_add]
        rw [channelAddend_at, if_pos hs]
        ring
    · intro hs1 hs2
      constructor
      · rw [processAccumul_direct_apply,
          channelContribution_of_not_lfe _ _ _ _ _ _ _ _ _ _ _ hLFE]
        simp only [Nat.zero_add]
        rw [channelAddend_at, if_neg (by omega), if_pos hs2]
      · rw [processAccumul_diffuse_apply,
          channelContribution_of_not_lfe _ _ _ _ _ _ _ _ _ _ _ hLFE]
        simp only [Nat.zero_add]
        rw [channelAddend_at, if_neg (by omega), if_pos hs2]
  · norm_num [channelApplyWith, accumFold, List.range_succ, List.range'_succ,
      Function.update]
  · norm_num [channelApplyWith, accumFold, List.range_succ, List.range'_succ,
      Function.update]

/-- Witness for C1: in the concrete run that interpolates from previous
gain 1 to target gain 0 over 2 samples, the contribution at sample index 1
is `1 * (1/2 * 0 + 1/2 * 1) * 1 = 1/2`. -/
theorem adm_c1_witness :
    ((layout1.channels.getD 0 ⟨true⟩).isLFE = false
      ∧ 1 < (gainsAndInterp layout1 extR ⟨[1], mR0, false⟩ mR1).2)
    ∧ (processAccumul layout1 extR ⟨[1], mR0, false⟩ mR1 oneIn zeroBuf zeroBuf 2 0).direct 0 (1 + 0)
      = zeroBuf 0 (1 + 0)
        + oneIn 1 * (((1 : ℕ) : ℝ) / (((gainsAndInterp layout1 extR ⟨[1], mR0, false⟩ mR1).2 : ℕ) : ℝ)
              * ((gainsAndInterp layout1 extR ⟨[1], mR0, false⟩ mR1).1.getD
                  (nonLFEBefore layout1.channels 0) 0)
            + (1 - ((1 : ℕ) : ℝ) / (((gainsAndInterp layout1 extR ⟨[1], mR0, false⟩ mR1).2 : ℕ) : ℝ))
              * ((⟨[1], mR0, false⟩ : PannerState Unit Unit).gains.getD
                  (nonLFEBefore layout1.channels 0) 0))
          * Real.sqrt (1 - mR1.diffuse) := by
  have h1 : (layout1.channels.getD 0 ⟨true⟩).isLFE = false := by decide
  have h2 : 1 < (gainsAndInterp layout1 extR ⟨[1], mR0, false⟩ mR1).2 := by
    rw [gainsAndInterp_s1_mR1]
    norm_num
  exact ⟨⟨h1, h2⟩,
    ((adm_c1_interpolated_application.1 Unit Unit layout1 extR ⟨[1], mR0, false⟩ mR1
      oneIn zeroBuf zeroBuf 2 0 0 1 h1).1 h2).1⟩

/-- C8: every call leaves the buffers of LFE channels completely unchanged;
for every non-LFE channel it only adds a contribution on top of the
existing buffer contents, and the gain-vector index used for a channel is
the number of non-LFE channels preceding it in layout order. -/
theorem adm_c8_lfe_skip_and_accumulate {CL ZE : Type} [DecidableEq CL] [DecidableEq ZE]
    (layout : Layout) (ext : Externals ℝ CL ZE) (st : PannerState CL ZE)
    (metadata : ObjectMetadata ℝ CL ZE) (pIn : ℕ → ℝ) (D F : ℕ → ℕ → ℝ)
    (nSamples nOffset j : ℕ) :
    ((layout.channels.getD j ⟨true⟩).isLFE = true →
      (processAccumul layout ext st metadata pIn D F nSamples nOffset).direct j = D j
      ∧ (processAccumul layout ext st metadata pIn D F nSamples nOffset).diffuse j = F j)
    ∧ ((layout.channels.getD j ⟨true⟩).isLFE = false →
      ∀ k : ℕ,
        (processAccumul layout ext st metadata pIn D F nSamples nOffset).direct j k
          = D j k + channelAddend (1 / (((gainsAndInterp layout ext st metadata).2 : ℕ) : ℝ)) pIn
              (st.gains.getD (nonLFEBefore layout.channels j) 0)
              ((gainsAndInterp layout ext st metadata).1.getD (nonLFEBefore layout.channels j) 0)
              (Real.sqrt (1 - metadata.diffuse))
              (gainsAndInterp layout ext st metadata).2 nSamples nOffset k
        ∧ (processAccumul layout ext st metadata pIn D F nSamples nOffset).diffuse j k
          = F j k + channelAddend (1 / (((gainsAndInterp layout ext st metadata).2 : ℕ) : ℝ)) pIn
              (st.gains.getD (nonLFEBefore layout.channels j) 0)
              ((gainsAndInterp layout ext st metadata).1.getD (nonLFEBefore layout.channels j) 0)
              (Real.sqrt metadata.diffuse)
              (gainsAndInterp layout ext st metadata).2 nSamples nOffset k) := by
  constructor
  · intro hLFE
    constructor
    · funext k
      rw [processAccumul_direct_apply,
        channelContribution_of_lfe _ _ _ _ _ _ _ _ _ _ _ hLFE, add_zero]
    · funext k
      rw [processAccumul_diffuse_apply,
        channelContribution_of_lfe _ _ _ _ _ _ _ _ _ _ _ hLFE, add_zero]
  · intro hLFE k
    constructor
    · rw [processAccumul_direct_apply,
        channelContribution_of_not_lfe _ _ _ _ _ _ _ _ _ _ _ hLFE]
      simp only [Nat.zero_add]
    · rw [processAccumul_diffuse_apply,
        channelContribution_of_not_lfe _ _ _ _ _ _ _ _ _ _ _ hLFE]
      simp only [Nat.zero_add]

/-- Witness for C8: in a two-channel layout whose second channel is an LFE,
a call leaves the LFE channel's buffers untouched. -/
theorem adm_c8_witness :
    (layout2.channels.getD 1 ⟨true⟩).isLFE = true
    ∧ ((processAccumul layout2 extR ⟨[1], mR0, false⟩ mR1 oneIn zeroBuf zeroBuf 4 0).direct 1
        = zeroBuf 1
      ∧ (processAccumul layout2 extR ⟨[1], mR0, false⟩ mR1 oneIn zeroBuf zeroBuf 4 0).diffuse 1
        = zeroBuf 1) := by
  have h : (layout2.channels.getD 1 ⟨true⟩).isLFE = true := by decide
  exact ⟨h, (adm_c8_lfe_skip_and_accumulate layout2 extR ⟨[1], mR0, false⟩ mR1
    oneIn zeroBuf zeroBuf 4 0 1).1 h⟩

end admrender

namespace admrender

lemma gainsAndInterp_snd {CL ZE : Type} [DecidableEq CL] [DecidableEq ZE]
    (layout : Layout) (ext : Externals ℝ CL ZE) (st : PannerState CL ZE)
    (metadata : ObjectMetadata ℝ CL ZE) :
    (gainsAndInterp layout ext st metadata).2
      = if ¬(metadata = st.metadata) then
          (if metadata.jumpPosition.flag = true ∧ st.firstFrame = false then
            metadata.jumpPosition.interpolationLength
          else 0)
        else 0 := by
  unfold gainsAndInterp
  by_cases hm : ¬(metadata = st.metadata)
  · rw [if_pos hm, if_pos hm]
  · rw [if_neg hm, if_neg hm]

/-- C4 (amended): the interpolation length equals
`metadata.jumpPosition.interpolationLength` IF the jump flag is set, the
metadata differs from the cached metadata and at least one frame was
processed before, and it is 0 in every other case (in particular on the
very first call); the two directions form an equivalence whenever
`interpolationLength` is nonzero (with `interpolationLength = 0`, the
"equals" holds trivially even when the conditions fail, which is the only
failure of the original "if and only if"). -/
theorem adm_c4_interp_length {CL ZE : Type} [DecidableEq CL] [DecidableEq ZE]
    (layout : Layout) (ext : Externals ℝ CL ZE) (st : PannerState CL ZE)
    (metadata : ObjectMetadata ℝ CL ZE) :
    ((¬(metadata = st.metadata) ∧ metadata.jumpPosition.flag = true
        ∧ st.firstFrame = false) →
      (gainsAndInterp layout ext st metadata).2
        = metadata.jumpPosition.interpolationLength)
    ∧ (¬(¬(metadata = st.metadata) ∧ metadata.jumpPosition.flag = true
        ∧ st.firstFrame = false) →
      (gainsAndInterp layout ext st metadata).2 = 0)
    ∧ (metadata.jumpPosition.interpolationLength ≠ 0 →
      ((gainsAndInterp layout ext st metadata).2
          = metadata.jumpPosition.interpolationLength
        ↔ (¬(metadata = st.metadata) ∧ metadata.jumpPosition.flag = true
            ∧ st.firstFrame = false))) := by
  rw [gainsAndInterp_snd]
  by_cases hm : ¬(metadata = st.metadata)
  · by_cases hc : metadata.jumpPosition.flag = true ∧ st.firstFrame = false
    · rw [if_pos hm, if_pos hc]
      exact ⟨fun _ => rfl, fun h => absurd ⟨hm, hc.1, hc.2⟩ h,
        fun _ => ⟨fun _ => ⟨hm, hc.1, hc.2⟩, fun _ => rfl⟩⟩
    · rw [if_pos hm, if_neg hc]
      refine ⟨fun h => absurd ⟨h.2.1, h.2.2⟩ hc, fun _ => rfl, fun hlen => ?_⟩
      exact ⟨fun h0 => absurd h0.symm hlen, fun h => absurd ⟨h.2.1, h.2.2⟩ hc⟩
  · rw [if_neg hm]
    refine ⟨fun h => absurd h.1 hm, fun _ => rfl, fun hlen => ?_⟩
    exact ⟨fun h0 => absurd h0.symm hlen, fun h => absurd h.1 hm⟩

/-- Witness for C4: with cached metadata `mR0`, a prior frame processed and
`mR3` (jump flag set, interpolation length 5, differing from the cache),
the interpolation length is 5. -/
theorem adm_c4_witness :
    (¬(mR3 = (⟨[], mR0, false⟩ : PannerState Unit Unit).metadata)
      ∧ mR3.jumpPosition.flag = true
      ∧ (⟨[], mR0, false⟩ : PannerState Unit Unit).firstFrame = false)
    ∧ (gainsAndInterp layout1 extR ⟨[], mR0, false⟩ mR3).2
        = mR3.jumpPosition.interpolationLength := by
  have h : ¬(mR3 = (⟨[], mR0, false⟩ : PannerState Unit Unit).metadata)
      ∧ mR3.jumpPosition.flag = true
      ∧ (⟨[], mR0, false⟩ : PannerState Unit Unit).firstFrame = false :=
    ⟨mR3_ne_mR0, rfl, rfl⟩
  exact ⟨h, (adm_c4_interp_length layout1 extR ⟨[], mR0, false⟩ mR3).1 h⟩

/-- C4 counterexample: with `mR2` (jump flag clear, interpolation length 0)
and a differing cached metadata after a processed frame, the interpolation
length (0) does equal `interpolationLength` although the claimed
conditions fail, so the original "if and only if" is false. -/
theorem adm_c4_counterexample :
    ¬(((gainsAndInterp layout1 extR ⟨[], mR0, false⟩ mR2).2
        = mR2.jumpPosition.interpolationLength)
      ↔ (¬(mR2 = (⟨[], mR0, false⟩ : PannerState Unit Unit).metadata)
          ∧ mR2.jumpPosition.flag = true
          ∧ (⟨[], mR0, false⟩ : PannerState Unit Unit).firstFrame = false)) := by
  intro hiff
  have hval : (gainsAndInterp layout1 extR ⟨[], mR0, false⟩ mR2).2 = 0 := by
    rw [gainsAndInterp_snd, if_pos (show ¬(mR2 = (⟨[], mR0, false⟩ : PannerState Unit Unit).metadata) from mR2_ne_mR0),
      if_neg (show ¬(mR2.jumpPosition.flag = true
        ∧ (⟨[], mR0, false⟩ : PannerState Unit Unit).firstFrame = false) by
          intro hc
          exact absurd hc.1 (by simp [mR2]))]
  have hflag : mR2.jumpPosition.flag = true := (hiff.mp hval).2.1
  exact absurd hflag (by simp [mR2])

end admrender

namespace admrender

lemma channelAddend_zero_interp {K : Type} [Field K] (d dAlt : K) (pIn : ℕ → K)
    (g0 g0Alt g1 coeff : K) (nS off k : ℕ) :
    channelAddend d pIn g0 g1 coeff 0 nS off k
      = channelAddend dAlt pIn g0Alt g1 coeff 0 nS off k := by
  unfold channelAddend
  rw [if_neg (show ¬(off ≤ k ∧ k - off < 0) by omega)]
  rw [if_neg (show ¬(off ≤ k ∧ k - off < 0) by omega)]

lemma channelContribution_zero_interp {K : Type} [Field K] (channels : List Channel)
    (pIn : ℕ → K) (gains mG mGAlt : List K) (coeff : K) (nS off iCh0 t k : ℕ) :
    channelContribution channels pIn gains mG coeff 0 nS off iCh0 t k
      = channelContribution channels pIn gains mGAlt coeff 0 nS off iCh0 t k := by
  unfold channelContribution
  by_cases h : (channels.getD t ⟨true⟩).isLFE = true
  · rw [if_pos h, if_pos h]
  · rw [if_neg h, if_neg h]
    exact channelAddend_zero_interp _ _ pIn _ _ _ coeff nS off k

/-- C3 (amended): a second `ProcessAccumul` call with the same metadata
reuses the first call's committed target gains with interpolation length 0;
when the first call itself used interpolation length 0 (in particular on a
fresh instance or with the jump flag clear) the two calls accumulate
bit-identical contributions — when the first call interpolated, the two
calls' contributions differ in general. -/
theorem adm_c3_metadata_reuse {CL ZE : Type} [DecidableEq CL] [DecidableEq ZE]
    (layout : Layout) (ext : Externals ℝ CL ZE) (st : PannerState CL ZE)
    (metadata : ObjectMetadata ℝ CL ZE) (pIn : ℕ → ℝ) (D F : ℕ → ℕ → ℝ)
    (nSamples nOffset : ℕ) :
    ((processAccumul layout ext
        (processAccumul layout ext st metadata pIn D F nSamples nOffset).state
        metadata pIn D F nSamples nOffset).state.gains
      = (processAccumul layout ext st metadata pIn D F nSamples nOffset).state.gains)
    ∧ (gainsAndInterp layout ext
        (processAccumul layout ext st metadata pIn D F nSamples nOffset).state
        metadata).2 = 0
    ∧ ((gainsAndInterp layout ext st metadata).2 = 0 →
      (processAccumul layout ext
          (processAccumul layout ext st metadata pIn D F nSamples nOffset).state
          metadata pIn D F nSamples nOffset).direct
        = (processAccumul layout ext st metadata pIn D F nSamples nOffset).direct
      ∧ (processAccumul layout ext
          (processAccumul layout ext st metadata pIn D F nSamples nOffset).state
          metadata pIn D F nSamples nOffset).diffuse
        = (processAccumul layout ext st metadata pIn D F nSamples nOffset).diffuse) := by
  have key : ∀ gv : List ℝ,
      gainsAndInterp layout ext (⟨gv, metadata, false⟩ : PannerState CL ZE) metadata
        = (gv, 0) :=
    fun gv => gainsAndInterp_reuse layout ext ⟨gv, metadata, false⟩
  refine ⟨?_, ?_, ?_⟩
  · simp only [processAccumul_state, key]
  · simp only [processAccumul_state, key]
  · intro h0
    constructor
    · funext j k
      simp only [processAccumul_state, processAccumul_direct_apply, key, h0]
      exact congrArg (fun t => D j k + t)
        (channelContribution_zero_interp layout.channels pIn
          (gainsAndInterp layout ext st metadata).1
          (gainsAndInterp layout ext st metadata).1 st.gains
          (Real.sqrt (1 - metadata.diffuse)) nSamples nOffset 0 j k)
    · funext j k
      simp only [processAccumul_state, processAccumul_diffuse_apply, key, h0]
      exact congrArg (fun t => F j k + t)
        (channelContribution_zero_interp layout.channels pIn
          (gainsAndInterp layout ext st metadata).1
          (gainsAndInterp layout ext st metadata).1 st.gains
          (Real.sqrt metadata.diffuse) nSamples nOffset 0 j k)

/-- Witness for C3: on a fresh instance whose first call reuses the cached
metadata (interpolation length 0), the two calls' outputs coincide. -/
theorem adm_c3_witness :
    (gainsAndInterp layout1 extR (initState layout1 mR0) mR0).2 = 0
    ∧ ((processAccumul layout1 extR
          (processAccumul layout1 extR (initState layout1 mR0) mR0 oneIn zeroBuf zeroBuf 4 0).state
          mR0 oneIn zeroBuf zeroBuf 4 0).direct
        = (processAccumul layout1 extR (initState layout1 mR0) mR0 oneIn zeroBuf zeroBuf 4 0).direct
      ∧ (processAccumul layout1 extR
          (processAccumul layout1 extR (initState layout1 mR0) mR0 oneIn zeroBuf zeroBuf 4 0).state
          mR0 oneIn zeroBuf zeroBuf 4 0).diffuse
        = (processAccumul layout1 extR (initState layout1 mR0) mR0 oneIn zeroBuf zeroBuf 4 0).diffuse) := by
  have h0 : (gainsAndInterp layout1 extR (initState layout1 mR0) mR0).2 = 0 :=
    congrArg Prod.snd (gainsAndInterp_reuse layout1 extR (initState layout1 mR0))
  exact ⟨h0, (adm_c3_metadata_reuse layout1 extR (initState layout1 mR0) mR0
    oneIn zeroBuf zeroBuf 4 0).2.2 h0⟩

/-- C3 counterexample: a panner that previously committed gains `[1]` and
then receives new metadata with jump interpolation length 2 accumulates
`1` at sample 0 on the first call (interpolating from the old gain) but
`0` on the immediately repeated call with the same metadata — the two
calls' contributions are not bit-identical. -/
theorem adm_c3_counterexample :
    ((processAccumul layout1 extR (initState layout1 mR2) mR0 oneIn zeroBuf zeroBuf 2 0).state
      = (⟨[1], mR0, false⟩ : PannerState Unit Unit))
    ∧ (processAccumul layout1 extR ⟨[1], mR0, false⟩ mR1 oneIn zeroBuf zeroBuf 2 0).direct 0 0 = 1
    ∧ (processAccumul layout1 extR
        (processAccumul layout1 extR ⟨[1], mR0, false⟩ mR1 oneIn zeroBuf zeroBuf 2 0).state
        mR1 oneIn zeroBuf zeroBuf 2 0).direct 0 0 = 0
    ∧ (processAccumul layout1 extR ⟨[1], mR0, false⟩ mR1 oneIn zeroBuf zeroBuf 2 0).direct 0 0
      ≠ (processAccumul layout1 extR
          (processAccumul layout1 extR ⟨[1], mR0, false⟩ mR1 oneIn zeroBuf zeroBuf 2 0).state
          mR1 oneIn zeroBuf zeroBuf 2 0).direct 0 0 := by
  have h1 : (processAccumul layout1 extR (initState layout1 mR2) mR0 oneIn zeroBuf zeroBuf 2 0).state
      = (⟨[1], mR0, false⟩ : PannerState Unit Unit) := by
    rw [processAccumul_state, gainsAndInterp_init_mR2_mR0]
  have h2 : (processAccumul layout1 extR ⟨[1], mR0, false⟩ mR1 oneIn zeroBuf zeroBuf 2 0).direct 0 0 = 1 := by
    rw [processAccumul_direct_apply]
    rw [gainsAndInterp_s1_mR1]
    norm_num [channelContribution, channelAddend, nonLFEBefore, zeroBuf, oneIn,
      layout1, mR1, Real.sqrt_one]
  have hrs : (processAccumul layout1 extR ⟨[1], mR0, false⟩ mR1 oneIn zeroBuf zeroBuf 2 0).state
      = (⟨[0], mR1, false⟩ : PannerState Unit Unit) := by
    rw [processAccumul_state, gainsAndInterp_s1_mR1]
  have hre : gainsAndInterp layout1 extR (⟨[0], mR1, false⟩ : PannerState Unit Unit) mR1
      = ([0], 0) :=
    gainsAndInterp_reuse layout1 extR ⟨[0], mR1, false⟩
  have h3 : (processAccumul layout1 extR
      (processAccumul layout1 extR ⟨[1], mR0, false⟩ mR1 oneIn zeroBuf zeroBuf 2 0).state
      mR1 oneIn zeroBuf zeroBuf 2 0).direct 0 0 = 0 := by
    rw [hrs, processAccumul_direct_apply, hre]
    norm_num [channelContribution, channelAddend, nonLFEBefore, zeroBuf, oneIn,
      layout1]
  exact ⟨h1, h2, h3, by rw [h2, h3]; norm_num⟩

lemma reachable_gains_inv {CL ZE : Type} [DecidableEq CL] [DecidableEq ZE]
    (layout : Layout) (ext : Externals ℝ CL ZE) (m0 : ObjectMetadata ℝ CL ZE)
    (s : PannerState CL ZE) (h : Reachable layout ext m0 s) :
    s.gains = targetGains layout ext s.metadata
      ∨ s.gains = List.replicate layout.nCh 0 := by
  induction h with
  | refl => exact Or.inr rfl
  | @tail b c hab hbc ih =>
    obtain ⟨m, pIn, D, F, n, off, hc⟩ := hbc
    subst hc
    rw [processAccumul_state]
    unfold gainsAndInterp
    by_cases hm : ¬(m = b.metadata)
    · rw [if_pos hm]
      exact Or.inl rfl
    · rw [if_neg hm]
      push_neg at hm
      rcases ih with hg | hg
    
      · exact Or.inl (by rw [hm]; exact hg)
      · exact Or.inr hg

/-- C7 (amended): after every call, `m_metadata` is the metadata just
passed in and `m_bFirstFrame` is false; for every reachable state (from
construction with all-zero gains and first-frame flag set), `m_gains` is
the fully-processed (post zone-exclusion, post overall-gain-scaling)
target gain vector of the cached metadata, or still the all-zero initial
vector in case no call has yet recomputed gains (every call so far, if
any, passed metadata equal to the initially cached metadata). -/
theorem adm_c7_committed_state {CL ZE : Type} [DecidableEq CL] [DecidableEq ZE]
    (layout : Layout) (ext : Externals ℝ CL ZE) (m0 : ObjectMetadata ℝ CL ZE) :
    ((initState layout m0).gains = List.replicate layout.nCh 0
      ∧ (initState layout m0).firstFrame = true)
    ∧ ∀ s : PannerState CL ZE, Reachable layout ext m0 s →
      ((s.gains = targetGains layout ext s.metadata
        ∨ s.gains = List.replicate layout.nCh 0)
      ∧ ∀ (metadata : ObjectMetadata ℝ CL ZE) (pIn : ℕ → ℝ) (D F : ℕ → ℕ → ℝ)
          (nSamples nOffset : ℕ),
        (processAccumul layout ext s metadata pIn D F nSamples nOffset).state.metadata
            = metadata
        ∧ (processAccumul layout ext s metadata pIn D F nSamples nOffset).state.firstFrame
            = false
        ∧ ((processAccumul layout ext s metadata pIn D F nSamples nOffset).state.gains
              = targetGains layout ext metadata
          ∨ (processAccumul layout ext s metadata pIn D F nSamples nOffset).state.gains
              = List.replicate layout.nCh 0)) := by
  refine ⟨⟨rfl, rfl⟩, fun s hs => ⟨reachable_gains_inv layout ext m0 s hs, ?_⟩⟩
  intro metadata pIn D F nSamples nOffset
  refine ⟨rfl, rfl, ?_⟩
  have hstep : Reachable layout ext m0
      (processAccumul layout ext s metadata pIn D F nSamples nOffset).state :=
    Relation.ReflTransGen.tail hs ⟨metadata, pIn, D, F, nSamples, nOffset, rfl⟩
  exact reachable_gains_inv layout ext m0 _ hstep

/-- Witness for C7 at the freshly constructed instance. -/
theorem adm_c7_witness :
    Reachable layout1 extR mR0 (initState layout1 mR0)
    ∧ ((initState layout1 mR0).gains
        = targetGains layout1 extR (initState layout1 mR0).metadata
      ∨ (initState layout1 mR0).gains = List.replicate layout1.nCh 0) :=
  ⟨Relation.ReflTransGen.refl,
    ((adm_c7_committed_state layout1 extR mR0).2 (initState layout1 mR0)
      Relation.ReflTransGen.refl).1⟩

/-- C7 counterexample: calling a fresh instance once with metadata equal to
the initially cached metadata reaches a state with `m_bFirstFrame = false`
whose cached gains (still all zero) are NOT the fully-processed target
gain vector of the most recently processed frame (which is `[1]` here). -/
theorem adm_c7_counterexample :
    Reachable layout1 extR mR0 ⟨List.replicate layout1.nCh 0, mR0, false⟩
    ∧ (⟨List.replicate layout1.nCh 0, mR0, false⟩ : PannerState Unit Unit).firstFrame = false
    ∧ (⟨List.replicate layout1.nCh 0, mR0, false⟩ : PannerState Unit Unit).gains
        ≠ targetGains layout1 extR
            (⟨List.replicate layout1.nCh 0, mR0, false⟩ : PannerState Unit Unit).metadata := by
  refine ⟨?_, rfl, ?_⟩
  · refine Relation.ReflTransGen.single ⟨mR0, oneIn, zeroBuf, zeroBuf, 0, 0, ?_⟩
    have hg : gainsAndInterp layout1 extR (initState layout1 mR0) mR0
        = (List.replicate layout1.nCh 0, 0) :=
      gainsAndInterp_reuse layout1 extR (initState layout1 mR0)
    rw [processAccumul_state, hg]
  · show List.replicate layout1.nCh 0 ≠ targetGains layout1 extR mR0
    rw [targetGains_layout1_mR0]
    simp [layout1, Layout.nCh]

end admrender
